import Mathlib

/-!
# Verification of the `assets_manager` core

A shallow embedding, in Lean 4, of the core operations of the
`assets_manager` asset cache, together with theorems checking its
natural-language specification against the code.

Modelled components:
* `src/lock.rs` — `CacheEntry`, `AssetRefLock` (type-erased cache entries
  over a heap of boxed `RwLock` cells; addresses are indices into the heap);
* `src/source/embedded.rs` — the `Embedded` source over fixed tables;
* `src/source/filesystem.rs` — the `FileSystem` source: path resolution
  (`path_of`), construction (`_new`) and directory listing (`read_dir`),
  with `std::path` file-name splitting (`file_stem` / `extension`)
  reproduced faithfully;
* `src/loader/mod.rs` — `BytesLoader`, `StringLoader`, `ParseLoader`.

Rust strings are modelled as `List Char`, byte buffers as `List Nat`
(with UTF-8 validation implemented explicitly), and fallible operations
as `Except`.
-/

namespace AssetsManager

/-- Rust `str` values are modelled as lists of characters. -/
abbrev Str := List Char

/-- Byte buffers (`[u8]` / `Vec<u8>`) are modelled as lists of naturals,
each in `0..256`. -/
abbrev Bytes := List Nat

/-- The relevant kinds of `std::io::Error`. -/
inductive IoErrorKind where
  | notFound
  | permissionDenied
  | notADirectory
  | otherError
deriving DecidableEq, Repr

/-- Rust's `Cow<[u8]>`: either borrowed from the source's storage or owned. -/
inductive Cow (α : Type) where
  | borrowed (val : α)
  | owned (val : α)
deriving DecidableEq, Repr

/-- The payload of a `Cow`, ignoring ownership. -/
def Cow.get : Cow α → α
  | .borrowed v => v
  | .owned v => v

/-!
## `src/lock.rs`: `CacheEntry` and `AssetRefLock`

A `CacheEntry` owns a heap-allocated `Box<RwLock<T>>`; an `AssetRefLock`
borrows the same lock.  We model the heap of boxed locks for one concrete
asset type `T` explicitly, as a list of `T` values: an address is an index,
`Box::new` allocates at the end, and reading or writing through a lock is
indexing or updating at the lock's address.  This captures the properties
the spec states — address stability, write visibility for outstanding
handles, and the `new`/`into_inner` round trip — while eliding the
scheduling of the `RwLock` itself.
-/

/-- The heap of boxed `RwLock<T>` cells for one asset type `T`.
Addresses are indices. -/
abbrev Heap (T : Type) := List T

/-- `CacheEntry` (type-erased entry): holds the address of its boxed lock,
as the `data : *const RwLock<()>` field does in the source. -/
structure CacheEntry where
  data : Nat
deriving DecidableEq, Repr

/-- `AssetRefLock<'a, T>`: a non-owning reference to an entry's lock,
holding the lock's address. -/
structure AssetRefLock where
  data : Nat
deriving DecidableEq, Repr

/-- `CacheEntry::new::<T>(asset)`: `Box::new(RwLock::new(asset))` allocates a
fresh cell holding `asset`; the entry records its address. -/
def CacheEntry.new {T : Type} (asset : T) (h : Heap T) : CacheEntry × Heap T :=
  (⟨h.length⟩, h ++ [asset])

/-- `CacheEntry::get_ref::<T>()`: an `AssetRefLock` borrowing the entry's
lock (same address). -/
def CacheEntry.get_ref (e : CacheEntry) : AssetRefLock :=
  ⟨e.data⟩

/-- `AssetRefLock::read()`: acquire the read lock and dereference, i.e.
read the heap cell at the lock's address. -/
def AssetRefLock.read {T : Type} (l : AssetRefLock) (h : Heap T) : Option T :=
  h[l.data]?

/-- `AssetRefLock::ptr_eq(other)`: pointer equality of the two borrowed
locks. -/
def AssetRefLock.ptr_eq (l other : AssetRefLock) : Bool :=
  l.data == other.data

/-- `CacheEntry::write::<T>(asset)`: take the entry's lock (`get_ref`),
acquire the write guard, store `asset` through it, and return the lock. -/
def CacheEntry.write {T : Type} (e : CacheEntry) (asset : T) (h : Heap T) :
    AssetRefLock × Heap T :=
  (e.get_ref, h.set e.get_ref.data asset)

/-- `CacheEntry::into_inner::<T>()`: consume the entry and return the value
stored in its boxed lock. -/
def CacheEntry.into_inner {T : Type} (e : CacheEntry) (h : Heap T) : Option T :=
  h[e.data]?

/-- **C1.** After `entry.write(y)` on an entry created with value `x`, a
handle obtained from `get_ref` before the write reads `y` (not `x`), and
the handle returned by `write` is `ptr_eq` to it. -/
theorem cacheEntry_write_visibility {T : Type} (h0 : Heap T) (x y : T) :
    (((CacheEntry.new x h0).1.get_ref).read
        ((CacheEntry.new x h0).1.write y (CacheEntry.new x h0).2).2 = some y)
    ∧ ((CacheEntry.new x h0).1.write y (CacheEntry.new x h0).2).1.ptr_eq
        ((CacheEntry.new x h0).1.get_ref) = true := by
  constructor
  · show (((h0 ++ [x]).set h0.length y))[h0.length]? = some y
    rw [List.getElem?_set_self]
    simp
  · simp [CacheEntry.write, CacheEntry.get_ref, AssetRefLock.ptr_eq]

/-- **C8.** Creating an entry from `v` and consuming it with `into_inner`
returns `v` unchanged. -/
theorem cacheEntry_new_into_inner {T : Type} (h0 : Heap T) (v : T) :
    (CacheEntry.new v h0).1.into_inner (CacheEntry.new v h0).2 = some v := by
  show (h0 ++ [v])[h0.length]? = some v
  simp

/-!
## `src/source/embedded.rs`: the `Embedded` source

`Embedded` holds two hash maps built from the raw tables:
`files : HashMap<(&str, &str), &[u8]>` and
`dirs : HashMap<&str, &[(&str, &str)]>`.  We model each map as its list of
key/value pairs with first-match lookup (a hash map's keys are unique, so
first-match agrees with map lookup).
-/

/-- The `Embedded` source: the `files` and `dirs` tables. -/
structure Embedded where
  files : List ((Str × Str) × Bytes)
  dirs : List (Str × List (Str × Str))
deriving DecidableEq, Repr

/-- Lookup in the `files` map: `self.files.get(&(id, ext))`. -/
def Embedded.findFile (e : Embedded) (id ext : Str) : Option Bytes :=
  go e.files
where
  go : List ((Str × Str) × Bytes) → Option Bytes
    | [] => none
    | ((i, x), b) :: rest => if (i, x) = (id, ext) then some b else go rest

/-- Lookup in the `dirs` map: `self.dirs.get(id)`. -/
def Embedded.findDir (e : Embedded) (id : Str) : Option (List (Str × Str)) :=
  go e.dirs
where
  go : List (Str × List (Str × Str)) → Option (List (Str × Str))
    | [] => none
    | (i, d) :: rest => if i = id then some d else go rest

/-- `Embedded::read(id, ext)`: return the table's bytes borrowed
(`Cow::Borrowed`), or a `NotFound` error when `(id, ext)` is absent. -/
def Embedded.read (e : Embedded) (id ext : Str) :
    Except IoErrorKind (Cow Bytes) :=
  match e.findFile id ext with
  | some content => .ok (.borrowed content)
  | none => .error .notFound

/-- `Embedded::read_dir(id, ext)`: `NotFound` when `id` is absent from
`dirs`; otherwise the directory's entries filtered by
`ext.contains(file_ext)`, keeping each entry's child id. -/
def Embedded.read_dir (e : Embedded) (id : Str) (ext : List Str) :
    Except IoErrorKind (List Str) :=
  match e.findDir id with
  | none => .error .notFound
  | some dir =>
      .ok ((dir.filter (fun p => decide (p.2 ∈ ext))).map Prod.fst)

/-- **C4.** `Embedded::read` succeeds exactly when `(id, ext)` is a key of
the `files` table; on success it returns that key's bytes borrowed
(`Cow::Borrowed`), and on absence it fails with `NotFound`. -/
theorem embedded_read_spec (e : Embedded) (id ext : Str) :
    ((e.read id ext).isOk = (e.findFile id ext).isSome)
    ∧ (∀ b, e.findFile id ext = some b →
        e.read id ext = .ok (.borrowed b))
    ∧ (e.findFile id ext = none → e.read id ext = .error .notFound) := by
  unfold Embedded.read
  cases h : e.findFile id ext with
  | none => exact ⟨rfl, fun b hb => by simp_all, fun _ => rfl⟩
  | some c =>
      refine ⟨rfl, fun b hb => ?_, fun hn => by simp_all⟩
      cases hb
      rfl

/-- **C4 witness.** A concrete embedded source with one file, on which
`read` returns the stored bytes borrowed. -/
theorem embedded_read_spec_witness :
    (Embedded.mk [(("a".toList, "x".toList), [1, 2])] []).read
        "a".toList "x".toList = .ok (.borrowed [1, 2]) :=
  (embedded_read_spec _ _ _).2.1 [1, 2] (by decide)

/-- **C2 counterexample.** `Embedded::read_dir` does not forbid duplicate
child ids: a directory whose table lists the same child with two
extensions, both in the filter, yields that child twice. -/
theorem embedded_read_dir_dup_cex :
    (Embedded.mk [] [("d".toList, [("a".toList, "x".toList),
        ("a".toList, "y".toList)])]).read_dir
        "d".toList ["x".toList, "y".toList]
      = .ok ["a".toList, "a".toList]
    ∧ ¬ (["a".toList, "a".toList].count "a".toList ≤ 1) := by
  constructor
  · rfl
  · decide

/-- **C2 (amended).** `Embedded::read_dir` fails with `NotFound` exactly
when `id` is absent from the `dirs` table; otherwise it returns the list
of child ids of exactly those directory entries whose extension is in the
filter (a child id may appear more than once when several of its entries
match). -/
theorem embedded_read_dir_spec (e : Embedded) (id : Str) (ext : List Str)
    (c : Str) :
    (e.read_dir id ext = .error .notFound ↔ e.findDir id = none)
    ∧ (∀ dir l, e.findDir id = some dir → e.read_dir id ext = .ok l →
        (c ∈ l ↔ ∃ x, (c, x) ∈ dir ∧ x ∈ ext)) := by
  unfold Embedded.read_dir
  cases h : e.findDir id with
  | none =>
      refine ⟨by simp, fun dir l hd => by simp_all⟩
  | some d =>
      refine ⟨by simp, fun dir l hd hl => ?_⟩
      cases hd
      cases hl
      simp only [List.mem_map, List.mem_filter]
      constructor
      · rintro ⟨⟨c', x⟩, ⟨hmem, hx⟩, rfl⟩
        exact ⟨x, hmem, of_decide_eq_true hx⟩
      · rintro ⟨x, hmem, hx⟩
        exact ⟨(c, x), ⟨hmem, decide_eq_true hx⟩, rfl⟩

/-- **C2 witness.** On a concrete one-entry directory the amended
characterization yields the expected membership. -/
theorem embedded_read_dir_spec_witness :
    "a".toList ∈ ["a".toList] :=
  ((embedded_read_dir_spec
      (Embedded.mk [] [("d".toList, [("a".toList, "x".toList)])])
      "d".toList ["x".toList] "a".toList).2
    [("a".toList, "x".toList)] ["a".toList] (by decide) rfl).mpr
    ⟨"x".toList, by decide, by decide⟩

/-!
## `std::path` file-name splitting

`FileSystem::read_dir` and `FileSystem::path_of` rely on
`Path::file_stem`, `Path::extension` and `PathBuf::set_extension`, all of
which split a file name at its *last* dot, treating a file name whose only
dot is its first character as having no extension.  We reproduce that
splitting on `Str` file names (the last path component; file names are
modelled as valid Unicode, so `OsStr::to_str` always succeeds).
-/

/-- Split a file name at its last `'.'`: `some (st, ex)` with
`f = st ++ '.' :: ex` and no dot in `ex`, or `none` when `f` has no dot. -/
def splitLastDot : Str → Option (Str × Str)
  | [] => none
  | c :: cs =>
    match splitLastDot cs with
    | some (st, ex) => some (c :: st, ex)
    | none => if c = '.' then some ([], cs) else none

/-- `Path::extension` of a file name: the portion after the last dot,
except that a name with no dot, or whose only dot starts it, has none. -/
def rustExtension (f : Str) : Option Str :=
  match splitLastDot f with
  | none => none
  | some (st, ex) => if st = [] then none else some ex

/-- `Path::file_stem` of a file name: the portion before the last dot, or
the whole name when `rustExtension` is `none`. -/
def rustFileStem (f : Str) : Str :=
  match splitLastDot f with
  | none => f
  | some (st, _) => if st = [] then f else st

/-- `filesystem.rs`'s `extension_of`: the path's extension, with "no
extension" mapped to the empty string. -/
def extension_of (f : Str) : Option Str :=
  match rustExtension f with
  | some ext => some ext
  | none => some []

/-- `filesystem.rs`'s `has_extension`: whether the file's extension (as
`extension_of`) is in the filter. -/
def has_extension (f : Str) (ext : List Str) : Bool :=
  match extension_of f with
  | some fileExt => decide (fileExt ∈ ext)
  | none => false

theorem splitLastDot_eq_none_iff (f : Str) :
    splitLastDot f = none ↔ '.' ∉ f := by
  induction f with
  | nil => simp [splitLastDot]
  | cons c cs ih =>
      rw [splitLastDot]
      cases h : splitLastDot cs with
      | some p =>
          obtain ⟨st, ex⟩ := p
          have hmem : '.' ∈ cs := by
            by_contra hn
            rw [ih.mpr hn] at h
            exact Option.noConfusion h
          simp [List.mem_cons, hmem]
      | none =>
          have hcs : '.' ∉ cs := ih.mp h
          by_cases hc : c = '.'
          · simp [hc]
          · simp [hc, hcs, List.mem_cons, Ne.symm hc]

theorem splitLastDot_eq_some (f st ex : Str)
    (h : splitLastDot f = some (st, ex)) :
    f = st ++ '.' :: ex ∧ '.' ∉ ex := by
  induction f generalizing st ex with
  | nil => simp [splitLastDot] at h
  | cons c cs ih =>
      rw [splitLastDot] at h
      split at h
      next st' ex' hcs =>
        simp only [Option.some.injEq, Prod.mk.injEq] at h
        obtain ⟨h1, h2⟩ := h
        subst h2
        subst h1
        obtain ⟨hf, hex⟩ := ih st' _ hcs
        exact ⟨by rw [hf]; rfl, hex⟩
      next hcs =>
        by_cases hc : c = '.'
        · rw [if_pos hc] at h
          simp only [Option.some.injEq, Prod.mk.injEq] at h
          obtain ⟨h1, h2⟩ := h
          subst h2
          subst h1
          exact ⟨by rw [hc]; rfl, (splitLastDot_eq_none_iff cs).mp hcs⟩
        · rw [if_neg hc] at h
          exact Option.noConfusion h

/-- If a file name has at most one dot and does not begin with a dot, its
`file_stem` has no dot. -/
theorem rustFileStem_no_dot (f : Str) (h1 : f.count '.' ≤ 1)
    (h2 : f.head? ≠ some '.') : '.' ∉ rustFileStem f := by
  rcases h : splitLastDot f with _ | ⟨st, ex⟩
  · simp only [rustFileStem, h]
    exact (splitLastDot_eq_none_iff f).mp h
  · simp only [rustFileStem, h]
    obtain ⟨hf, _⟩ := splitLastDot_eq_some f st ex h
    by_cases hst : st = []
    · exfalso
      apply h2
      rw [hf, hst]
      rfl
    · rw [if_neg hst]
      intro hmem
      have hc0 : st.count '.' ≠ 0 := fun h0 => List.count_eq_zero.mp h0 hmem
      rw [hf, List.count_append] at h1
      have hcex : ('.' :: ex).count '.' = ex.count '.' + 1 := by
        simp [List.count_cons]
      omega

/-!
## `src/source/filesystem.rs`: `FileSystem`

The filesystem's state is an input to each modelled operation: `read_dir`
takes the result of `fs::read_dir` on the resolved directory path (an
error, or the list of per-entry results the iterator yields), `_new`
takes the status of the root path.
-/

/-- One successful `fs::read_dir` entry: its file name (last path
component) and whether `path.is_file()` holds. -/
structure DirEntry where
  fileName : Str
  isFile : Bool
deriving DecidableEq, Repr

/-- The per-entry loop of `FileSystem::read_dir`: skip failed entries,
skip entries whose extension is not in the filter, push each remaining
entry's `file_stem` if it is a file. -/
def readDirEntries (ext : List Str) :
    List (Except IoErrorKind DirEntry) → List Str
  | [] => []
  | .error _ :: rest => readDirEntries ext rest
  | .ok entry :: rest =>
    if ¬ has_extension entry.fileName ext then readDirEntries ext rest
    else
      let name := rustFileStem entry.fileName
      if entry.isFile then name :: readDirEntries ext rest
      else readDirEntries ext rest

/-- `FileSystem::read_dir(id, ext)`: propagate a failure of
`fs::read_dir` itself, otherwise collect entries with `readDirEntries`. -/
def FileSystem.read_dir
    (openResult : Except IoErrorKind (List (Except IoErrorKind DirEntry)))
    (ext : List Str) : Except IoErrorKind (List Str) :=
  match openResult with
  | .error e => .error e
  | .ok entries => .ok (readDirEntries ext entries)

/-- Per-entry hypothesis for the amended C3: an entry is either a failed
read, or its file name has at most one dot and does not begin with one. -/
def entryAtMostOneDot (d : Except IoErrorKind DirEntry) : Bool :=
  match d with
  | .error _ => true
  | .ok e => decide (e.fileName.count '.' ≤ 1)
      && decide (e.fileName.head? ≠ some '.')

/-- **C3 counterexample.** A file name with two dots yields a child id
that still contains a dot: `FileSystem::read_dir` pushes `file_stem`,
which only strips the last extension. -/
theorem filesystem_read_dir_dot_cex :
    FileSystem.read_dir (.ok [.ok ⟨"a.b.x".toList, true⟩]) ["x".toList]
      = .ok ["a.b".toList]
    ∧ '.' ∈ "a.b".toList := by
  exact ⟨rfl, by decide⟩

/-- **C3 (amended).** Every child id returned by `FileSystem::read_dir`
contains no `'.'`, provided every successfully read entry's file name
contains at most one `'.'` and does not begin with `'.'`. -/
theorem filesystem_read_dir_leaf (ext : List Str)
    (entries : List (Except IoErrorKind DirEntry))
    (h : entries.all entryAtMostOneDot = true)
    (res : List Str)
    (hres : FileSystem.read_dir (.ok entries) ext = .ok res) :
    ∀ c ∈ res, '.' ∉ c := by
  have hres' : res = readDirEntries ext entries := by
    injection hres with h'
    exact h'.symm
  subst hres'
  clear hres
  induction entries with
  | nil => simp [readDirEntries]
  | cons d rest ih =>
      rw [List.all_cons, Bool.and_eq_true] at h
      obtain ⟨hd, hrest⟩ := h
      cases d with
      | error e => exact ih hrest
      | ok entry =>
          rw [readDirEntries]
          by_cases hext : has_extension entry.fileName ext
          · simp only [hext, not_true_eq_false, if_false]
            unfold entryAtMostOneDot at hd
            rw [Bool.and_eq_true, decide_eq_true_eq, decide_eq_true_eq] at hd
            by_cases hfile : entry.isFile
            · simp only [hfile, if_true]
              intro c hc
              rcases List.mem_cons.mp hc with hc | hc
              · subst hc
                exact rustFileStem_no_dot _ hd.1 hd.2
              · exact ih hrest c hc
            · simp only [hfile, if_false]
              exact ih hrest
          · simp only [hext, not_false_eq_true, if_true]
            exact ih hrest

/-- **C3 witness.** A one-file directory with a single-dot file name, on
which the returned child id is dot-free. -/
theorem filesystem_read_dir_leaf_witness : '.' ∉ "a".toList :=
  filesystem_read_dir_leaf ["x".toList] [.ok ⟨"a.x".toList, true⟩]
    (by decide) ["a".toList] rfl "a".toList (by decide)

/-- **C10.** `FileSystem::read_dir` fails only when opening the directory
itself fails (propagating that error); once the directory is open the
result is always `Ok`, and a failed entry anywhere in the iteration is
skipped: the output equals that of the listing without it. -/
theorem filesystem_read_dir_error_structure (ext : List Str) :
    (∀ e, FileSystem.read_dir (.error e) ext = .error e)
    ∧ (∀ entries,
        (FileSystem.read_dir (.ok entries) ext).isOk = true)
    ∧ (∀ xs ys e,
        readDirEntries ext (xs ++ .error e :: ys)
          = readDirEntries ext (xs ++ ys)) := by
  refine ⟨fun e => rfl, fun entries => rfl, fun xs ys e => ?_⟩
  induction xs with
  | nil => rfl
  | cons d rest ih =>
      cases d with
      | error e' => simpa [readDirEntries] using ih
      | ok entry =>
          simp only [List.cons_append, readDirEntries, List.append_eq]
          rw [ih]

/-!
## `FileSystem::_new` (construction) and `FileSystem::path_of`

`_new` canonicalizes the root and probes it with `read_dir`, propagating
either failure; paths are modelled as lists of components, and the status
of the root path (with the documented behaviour of `Path::canonicalize`
and `Path::read_dir` on it) is an input.
-/

/-- The status of a path on disk, as far as `_new`'s two probes see it. -/
inductive PathStatus where
  | missing
  | file
  | dir (readable : Bool)
deriving DecidableEq, Repr

/-- `Path::canonicalize`: fails with `NotFound` when the path does not
exist. -/
def canonicalizeCall : PathStatus → Except IoErrorKind Unit
  | .missing => .error .notFound
  | _ => .ok ()

/-- `Path::read_dir` used as a probe: fails when the path is missing, is
not a directory, or is a directory that cannot be read. -/
def readDirCall : PathStatus → Except IoErrorKind Unit
  | .missing => .error .notFound
  | .file => .error .notADirectory
  | .dir true => .ok ()
  | .dir false => .error .permissionDenied

/-- A `FileSystem` source: its canonicalized root path, as components. -/
structure FileSystem where
  root : List Str
deriving DecidableEq, Repr

/-- `FileSystem::_new(path)`: `path.canonicalize()?`, then
`path.read_dir()?`, then `Ok(FileSystem { path })`. -/
def FileSystem._new (root : List Str) (st : PathStatus) :
    Except IoErrorKind FileSystem :=
  match canonicalizeCall st with
  | .error e => .error e
  | .ok _ =>
    match readDirCall st with
    | .error e => .error e
    | .ok _ => .ok ⟨root⟩

/-- **C5.** `FileSystem::new` fails with `NotFound` on a missing root,
fails with an I/O error on a non-directory or unreadable root, and
succeeds on a readable directory. -/
theorem filesystem_new_spec (root : List Str) :
    FileSystem._new root .missing = .error .notFound
    ∧ FileSystem._new root .file = .error .notADirectory
    ∧ FileSystem._new root (.dir false) = .error .permissionDenied
    ∧ FileSystem._new root (.dir true) = .ok ⟨root⟩ :=
  ⟨rfl, rfl, rfl, rfl⟩

/-!
## `FileSystem::path_of`

`path_of(id, ext)` clones the root, extends it with `id.split('.')`, and
calls `PathBuf::set_extension(ext)`.  `set_extension` rewrites the last
component to its `file_stem`, plus `"." + ext` when `ext` is nonempty.
-/

/-- Rust's `str::split('.')` on an id. -/
def splitOnDot : Str → List Str
  | [] => [[]]
  | c :: cs =>
    if c = '.' then [] :: splitOnDot cs
    else
      match splitOnDot cs with
      | [] => [[c]]
      | s :: rest => (c :: s) :: rest

/-- The effect of `PathBuf::set_extension(ext)` on the final component:
its `file_stem`, then `"." + ext` when `ext` is nonempty. -/
def applyExtension (fileName : Str) (ext : Str) : Str :=
  rustFileStem fileName ++ (if ext = [] then [] else '.' :: ext)

/-- `PathBuf::set_extension(ext)` on a path given as components: rewrite
the last component; a path with no components (no file name) is kept. -/
def setExtension : List Str → Str → List Str
  | [], _ => []
  | [fileName], ext => [applyExtension fileName ext]
  | c :: c2 :: rest, ext => c :: setExtension (c2 :: rest) ext

/-- `PathBuf::extend(id.split('.'))`: push each segment (segments of a
valid id are nonempty, so each push appends one component). -/
def pathExtend (p : List Str) (segs : List Str) : List Str :=
  p ++ segs

/-- `FileSystem::path_of(id, ext)`. -/
def FileSystem.path_of (fs : FileSystem) (id : Str) (ext : Str) :
    List Str :=
  setExtension (pathExtend fs.root (splitOnDot id)) ext

/-- A character allowed in an id segment: `[A-Za-z0-9_-]`. -/
def validSegChar (c : Char) : Bool :=
  c.isAlphanum || c = '_' || c = '-'

/-- A valid id segment: nonempty, all characters allowed. -/
def validSeg (s : Str) : Bool :=
  !s.isEmpty && s.all validSegChar

/-- The id grammar: every `'.'`-separated segment is valid. -/
def validId (id : Str) : Bool :=
  (splitOnDot id).all validSeg

theorem splitOnDot_ne_nil (id : Str) : splitOnDot id ≠ [] := by
  cases id with
  | nil => simp [splitOnDot]
  | cons c cs =>
      rw [splitOnDot]
      by_cases hc : c = '.'
      · simp [hc]
      · simp only [hc, if_false]
        cases splitOnDot cs <;> simp

theorem validSeg_no_dot (s : Str) (h : validSeg s = true) : '.' ∉ s := by
  rw [validSeg, Bool.and_eq_true] at h
  intro hmem
  have := List.all_eq_true.mp h.2 '.' hmem
  simp [validSegChar] at this

theorem setExtension_concat (xs : List Str) (fileName : Str) (ext : Str) :
    setExtension (xs ++ [fileName]) ext = xs ++ [applyExtension fileName ext] := by
  induction xs with
  | nil => rfl
  | cons x xs' ih =>
      cases xs' with
      | nil => rfl
      | cons y ys => simpa [setExtension] using ih

theorem applyExtension_no_dot_name (fileName : Str) (h : '.' ∉ fileName)
    (ext : Str) :
    applyExtension fileName ext
      = fileName ++ (if ext = [] then [] else '.' :: ext) := by
  unfold applyExtension rustFileStem
  rw [(splitLastDot_eq_none_iff fileName).mpr h]

/-- **C6.** For a valid id and a nonempty extension, `path_of` is the root
followed by the id's segments, with `"." + ext` appended to the last
segment; with the empty extension, no extension is appended. -/
theorem filesystem_path_of_spec (fs : FileSystem) (id : Str) (ext : Str)
    (hid : validId id = true) :
    (ext ≠ [] →
      fs.path_of id ext
        = fs.root ++ (splitOnDot id).dropLast
            ++ [(splitOnDot id).getLastD [] ++ '.' :: ext])
    ∧ fs.path_of id [] = fs.root ++ splitOnDot id := by
  rcases List.eq_nil_or_concat (splitOnDot id) with hnil | ⟨segs, lastSeg, hsegs⟩
  · exact absurd hnil (splitOnDot_ne_nil id)
  · have hlast : validSeg lastSeg = true := by
      have hall : (splitOnDot id).all validSeg = true := hid
      refine List.all_eq_true.mp hall lastSeg ?_
      rw [hsegs]
      simp [List.concat_eq_append]
    have hnodot : '.' ∉ lastSeg := validSeg_no_dot lastSeg hlast
    constructor
    · intro hext
      unfold FileSystem.path_of pathExtend
      rw [hsegs]
      simp only [List.concat_eq_append, ← List.append_assoc]
      rw [setExtension_concat, applyExtension_no_dot_name lastSeg hnodot,
        if_neg hext]
      simp [List.dropLast_concat, List.getLastD_concat]
    · unfold FileSystem.path_of pathExtend
      rw [hsegs]
      simp only [List.concat_eq_append, ← List.append_assoc]
      rw [setExtension_concat, applyExtension_no_dot_name lastSeg hnodot]
      simp


/-- **C6 witness.** Concrete resolution: id `"a.b"` with extension
`"png"` under root `["r"]`. -/
theorem filesystem_path_of_spec_witness :
    (FileSystem.mk ["r".toList]).path_of "a.b".toList "png".toList
      = ["r".toList] ++ (splitOnDot "a.b".toList).dropLast
          ++ [(splitOnDot "a.b".toList).getLastD [] ++ '.' :: "png".toList] :=
  (filesystem_path_of_spec (FileSystem.mk ["r".toList]) "a.b".toList
    "png".toList (by decide)).1 (by decide)

/-!
## `src/loader/mod.rs`: `BytesLoader`, `StringLoader`, `ParseLoader`

Loaders receive the file content as `Cow<[u8]>` and the chosen extension.
UTF-8 validation (`str::from_utf8` / `String::from_utf8`) is implemented
explicitly below, including the rejection of truncated sequences, stray
continuation bytes, overlong encodings, surrogates and code points above
`0x10FFFF`.
-/

/-- A UTF-8 continuation byte: `0x80..0xBF`. -/
def isCont (b : Nat) : Bool :=
  0x80 ≤ b && b < 0xC0

/-- Decode a byte sequence as UTF-8, the validation `str::from_utf8`
performs: `none` on any malformed input. -/
def utf8Decode : Bytes → Option Str
  | [] => some []
  | b :: rest =>
    if b < 0x80 then
      (utf8Decode rest).map (fun s => Char.ofNat b :: s)
    else if b < 0xC2 then none
    else if b < 0xE0 then
      match rest with
      | b1 :: rest2 =>
        if isCont b1 then
          (utf8Decode rest2).map
            (fun s => Char.ofNat ((b - 0xC0) * 0x40 + (b1 - 0x80)) :: s)
        else none
      | _ => none
    else if b < 0xF0 then
      match rest with
      | b1 :: b2 :: rest3 =>
        if isCont b1 && isCont b2
            && !(b == 0xE0 && b1 < 0xA0)
            && !(b == 0xED && 0xA0 ≤ b1) then
          (utf8Decode rest3).map
            (fun s => Char.ofNat
              ((b - 0xE0) * 0x1000 + (b1 - 0x80) * 0x40 + (b2 - 0x80)) :: s)
        else none
      | _ => none
    else if b < 0xF5 then
      match rest with
      | b1 :: b2 :: b3 :: rest4 =>
        if isCont b1 && isCont b2 && isCont b3
            && !(b == 0xF0 && b1 < 0x90)
            && !(b == 0xF4 && 0x90 ≤ b1) then
          (utf8Decode rest4).map
            (fun s => Char.ofNat
              ((b - 0xF0) * 0x40000 + (b1 - 0x80) * 0x1000
                + (b2 - 0x80) * 0x40 + (b3 - 0x80)) :: s)
        else none
      | _ => none
    else none

/-- Rust's `BoxedError` (`Box<dyn Error>`) as the loaders produce it via
`?`: a boxed UTF-8 decoding error, or a boxed parser error. -/
inductive BoxedErr (E : Type) where
  | utf8Error
  | wrapped (e : E)
deriving DecidableEq, Repr

/-- `BytesLoader`'s `Loader<Vec<u8>>` impl: `Ok(content.into_owned())`. -/
def BytesLoader.load (content : Cow Bytes) (_ext : Str) :
    Except (BoxedErr Empty) Bytes :=
  .ok content.get

/-- `StringLoader`'s `Loader<String>` impl:
`Ok(String::from_utf8(content.into_owned())?)`. -/
def StringLoader.load (content : Cow Bytes) (_ext : Str) :
    Except (BoxedErr Empty) Str :=
  match utf8Decode content.get with
  | none => .error .utf8Error
  | some s => .ok s

/-- `ParseLoader`'s `Loader<T>` impl for `T : FromStr` (the `FromStr`
implementation is the parameter `P`):
`Ok(str::from_utf8(&content)?.parse()?)`. -/
def ParseLoader.load {T E : Type} (P : Str → Except E T)
    (content : Cow Bytes) (_ext : Str) : Except (BoxedErr E) T :=
  match utf8Decode content.get with
  | none => .error .utf8Error
  | some s =>
    match P s with
    | .ok v => .ok v
    | .error e => .error (.wrapped e)

/-- **C7.** `ParseLoader::load` is UTF-8 decoding followed by the parse:
`Ok v` when both steps succeed with parse result `v`, the boxed UTF-8
error when decoding fails, and the boxed parser error when parsing
fails. -/
theorem parseLoader_spec {T E : Type} (P : Str → Except E T)
    (content : Cow Bytes) (ext : Str) :
    (∀ s v, utf8Decode content.get = some s → P s = .ok v →
      ParseLoader.load P content ext = .ok v)
    ∧ (utf8Decode content.get = none →
      ParseLoader.load P content ext = .error .utf8Error)
    ∧ (∀ s e, utf8Decode content.get = some s → P s = .error e →
      ParseLoader.load P content ext = .error (.wrapped e)) := by
  unfold ParseLoader.load
  refine ⟨fun s v hs hv => ?_, fun hn => by rw [hn], fun s e hs he => ?_⟩
  · rw [hs]
    dsimp only
    rw [hv]
  · rw [hs]
    dsimp only
    rw [he]

/-- **C7 witness.** Parsing the two bytes of `"42"` with a length-counting
parser goes through both steps. -/
theorem parseLoader_spec_witness :
    ParseLoader.load (fun s => (Except.ok s.length : Except Unit Nat))
      (.borrowed [0x34, 0x32]) "x".toList = .ok 2 :=
  (parseLoader_spec _ _ _).1 "42".toList 2 (by decide) rfl

/-- **C9.** `BytesLoader`, `StringLoader` and `ParseLoader` ignore the
extension parameter: for any content, loading with one extension equals
loading with any other. -/
theorem loaders_ignore_extension {T E : Type} (P : Str → Except E T)
    (content : Cow Bytes) (ext1 ext2 : Str) :
    BytesLoader.load content ext1 = BytesLoader.load content ext2
    ∧ StringLoader.load content ext1 = StringLoader.load content ext2
    ∧ ParseLoader.load P content ext1 = ParseLoader.load P content ext2 :=
  ⟨rfl, rfl, rfl⟩

end AssetsManager
